import Mathlib

/-!
Verification of the BIKE `gf2x` modular-inversion core (`src/gf2x/gf2x_inv.c`
and `include/internal/bike_defs.h`): a shallow embedding of the addition-chain
inversion algorithm over F2[x]/(x^R - 1) together with its hardcoded
per-security-level exponent-chain tables, and theorems settling the spec's
claims about them.
-/

set_option maxRecDepth 4000

/-- The arithmetic context of `gf2x_internal.h` as consumed by `gf2x_inv.c`:
`sqr` computes the unreduced square into a double-width buffer (type `β`),
`red` reduces a double-width value back to a ring element (type `α`),
`k_sqr` is the permutation-based k-squaring parameterized by `l`, and
`mul` is ring multiplication (`gf2x_mod_mul_with_ctx`). -/
structure gf2x_ctx (α β : Type) where
  sqr : α → β
  red : β → α
  k_sqr : α → Nat → α
  mul : α → α → α

/-- `K_SQR_THR` from gf2x_inv.c: threshold for switching from repeated
squaring to a single k-squaring. -/
def K_SQR_THR : Nat := 64

/-- `gf2x_mod_sqr_in_place`: a = a^2 mod (x^r - 1), via `ctx->sqr` into the
double-width secure buffer followed by `ctx->red`. Value semantics: the new
value of `a`. -/
def gf2x_mod_sqr_in_place {α β : Type} (ctx : gf2x_ctx α β) (a : α) : α :=
  ctx.red (ctx.sqr a)

/-- `repeated_squaring`: c = a^(2^num_sqrs), computed by `num_sqrs`
sequential modular squarings of a copy of `a`. -/
def repeated_squaring {α β : Type} (ctx : gf2x_ctx α β) (a : α) :
    Nat → α
  | 0 => a
  | n + 1 => gf2x_mod_sqr_in_place ctx (repeated_squaring ctx a n)

/-- The per-step exponentiation pattern inlined twice in `gf2x_mod_inv`
(lines 277-281 and 288-292): repeated squaring when `k <= K_SQR_THR`,
otherwise one k-squaring parameterized by `l`. -/
def k_square_or_repeat {α β : Type} (ctx : gf2x_ctx α β) (x : α)
    (k l : Nat) : α :=
  if k ≤ K_SQR_THR then repeated_squaring ctx x k else ctx.k_sqr x l

/-- The exponent-chain table of one security level: `MAX_I` and the four
constant arrays `EXP0_K_VALS`, `EXP0_L_VALS`, `EXP1_K_VALS`, `EXP1_L_VALS`. -/
structure InvTables where
  max_i : Nat
  exp0_k : List Nat
  exp0_l : List Nat
  exp1_k : List Nat
  exp1_l : List Nat
deriving DecidableEq, Repr

/-- One iteration of the `for(i = 1; i < MAX_I; i++)` loop of
`gf2x_mod_inv`, acting on the pair of accumulators `(f, t)`.
Note the argument order of the multiplications in the source:
`gf2x_mod_mul_with_ctx(&f, &g, &f, ...)` computes f = g*f and
`gf2x_mod_mul_with_ctx(&t, &g, &t, ...)` computes t = g*t. -/
def invStep {α β : Type} (ctx : gf2x_ctx α β) (tab : InvTables)
    (ft : α × α) (i : Nat) : α × α :=
  let g := k_square_or_repeat ctx ft.1 (tab.exp0_k.getD (i - 1) 0)
      (tab.exp0_l.getD (i - 1) 0)
  let f := ctx.mul g ft.1
  if tab.exp1_k.getD i 0 ≠ 0 then
    let g2 := k_square_or_repeat ctx f (tab.exp1_k.getD i 0)
        (tab.exp1_l.getD i 0)
    (f, ctx.mul g2 ft.2)
  else
    (f, ft.2)

/-- `gf2x_mod_inv`: inversion in F_2[x]/(x^R - 1) per [1](Algorithm 2).
`f` and `t` are both initialized to `a`; the loop runs `i = 1 .. MAX_I-1`;
the result is the final modular squaring of `t`. -/
def gf2x_mod_inv {α β : Type} (ctx : gf2x_ctx α β) (tab : InvTables)
    (a : α) : α :=
  let ft := (List.range' 1 (tab.max_i - 1)).foldl (invStep ctx tab) (a, a)
  gf2x_mod_sqr_in_place ctx ft.2

/-! ## The hardcoded per-level tables of gf2x_inv.c -/

/-- LEVEL 0, R=2053. -/
def tablesLevel0 : InvTables :=
  ⟨12,
   [1, 2, 4, 8, 16, 32, 64, 128, 256, 512, 1024, 2048],
   [1027, 1540, 385, 409, 988, 969, 740, 1502, 1810, 1565, 2049, 16],
   [0, 1, 0, 0, 0, 0, 0, 0, 0, 0, 0, 3],
   [0, 1027, 0, 0, 0, 0, 0, 0, 0, 0, 0, 770]⟩

/-- LEVEL 10, R=7109. -/
def tablesLevel10 : InvTables :=
  ⟨13,
   [1, 2, 4, 8, 16, 32, 64, 128, 256, 512, 1024, 2048, 4096],
   [3555, 5332, 1333, 6748, 2359, 5643, 2238, 3908, 2332, 6948, 4594, 5324,
    1393],
   [0, 1, 0, 0, 0, 0, 3, 67, 195, 451, 0, 963, 3011],
   [0, 3555, 0, 0, 0, 0, 2666, 2057, 5586, 2864, 0, 981, 4838]⟩

/-- LEVEL 11, R=773. -/
def tablesLevel11 : InvTables :=
  ⟨10,
   [1, 2, 4, 8, 16, 32, 64, 128, 256, 512],
   [387, 580, 145, 154, 526, 715, 272, 549, 704, 123],
   [0, 1, 0, 0, 0, 0, 0, 0, 3, 259],
   [0, 387, 0, 0, 0, 0, 0, 0, 290, 88]⟩

/-- LEVEL 12, R=1019. -/
def tablesLevel12 : InvTables :=
  ⟨10,
   [1, 2, 4, 8, 16, 32, 64, 128, 256, 512],
   [510, 255, 828, 816, 449, 858, 446, 211, 704, 382],
   [0, 0, 0, 1, 9, 25, 57, 121, 249, 505],
   [0, 0, 0, 510, 408, 791, 24, 514, 440, 1003]⟩

/-- LEVEL 13, R=1283. -/
def tablesLevel13 : InvTables :=
  ⟨11,
   [1, 2, 4, 8, 16, 32, 64, 128, 256, 512, 1024],
   [642, 321, 401, 426, 573, 1164, 48, 1021, 645, 333, 551],
   [0, 0, 0, 0, 0, 0, 0, 0, 1, 0, 257],
   [0, 0, 0, 0, 0, 0, 0, 0, 642, 0, 964]⟩

/-- LEVEL 14, R=2029. -/
def tablesLevel14 : InvTables :=
  ⟨11,
   [1, 2, 4, 8, 16, 32, 64, 128, 256, 512, 1024],
   [1015, 1522, 1395, 214, 1158, 1824, 1445, 184, 1392, 1998, 961],
   [0, 1, 0, 3, 0, 11, 43, 107, 235, 491, 1003],
   [0, 1015, 0, 761, 0, 534, 96, 748, 1689, 1506, 2010]⟩

/-- LEVEL 15, R=2053 (same table as LEVEL 0). -/
def tablesLevel15 : InvTables :=
  ⟨12,
   [1, 2, 4, 8, 16, 32, 64, 128, 256, 512, 1024, 2048],
   [1027, 1540, 385, 409, 988, 969, 740, 1502, 1810, 1565, 2049, 16],
   [0, 1, 0, 0, 0, 0, 0, 0, 0, 0, 0, 3],
   [0, 1027, 0, 0, 0, 0, 0, 0, 0, 0, 0, 770]⟩

/-- LEVEL 16, R=2069. -/
def tablesLevel16 : InvTables :=
  ⟨12,
   [1, 2, 4, 8, 16, 32, 64, 128, 256, 512, 1024, 2048],
   [1035, 1552, 388, 1576, 976, 836, 1643, 1473, 1417, 959, 1045, 1662],
   [0, 1, 0, 0, 3, 0, 0, 0, 0, 0, 0, 19],
   [0, 1035, 0, 0, 776, 0, 0, 0, 0, 0, 0, 122]⟩

/-- LEVEL 17, R=4021. -/
def tablesLevel17 : InvTables :=
  ⟨12,
   [1, 2, 4, 8, 16, 32, 64, 128, 256, 512, 1024, 2048],
   [2011, 3016, 754, 1555, 1404, 926, 1003, 759, 1078, 15, 225, 2373],
   [0, 1, 0, 0, 3, 19, 0, 51, 179, 435, 947, 1971],
   [0, 2011, 0, 0, 1508, 2186, 0, 1673, 3192, 3021, 1084, 2640]⟩

/-- LEVEL 18, R=4099. -/
def tablesLevel18 : InvTables :=
  ⟨13,
   [1, 2, 4, 8, 16, 32, 64, 128, 256, 512, 1024, 2048, 4096],
   [2050, 1025, 1281, 1361, 3672, 1973, 2778, 2966, 702, 924, 1184, 4097, 4],
   [0, 0, 0, 0, 0, 0, 0, 0, 0, 0, 0, 0, 1],
   [0, 0, 0, 0, 0, 0, 0, 0, 0, 0, 0, 0, 2050]⟩

/-- LEVEL 1, R=12323. -/
def tablesLevel1 : InvTables :=
  ⟨14,
   [1, 2, 4, 8, 16, 32, 64, 128, 256, 512, 1024, 2048, 4096, 8192],
   [6162, 3081, 3851, 5632, 22, 484, 119, 1838, 1742, 3106, 10650, 1608,
    10157, 8816],
   [0, 0, 0, 0, 0, 1, 0, 0, 0, 0, 0, 0, 33, 4129],
   [0, 0, 0, 0, 0, 6162, 0, 0, 0, 0, 0, 0, 242, 5717]⟩

/-- LEVEL 3, R=24659. -/
def tablesLevel3 : InvTables :=
  ⟨15,
   [1, 2, 4, 8, 16, 32, 64, 128, 256, 512, 1024, 2048, 4096, 8192, 16384],
   [12330, 6165, 7706, 3564, 2711, 1139, 15053, 1258, 4388, 20524, 9538,
    6393, 10486, 1715, 6804],
   [0, 0, 0, 0, 1, 0, 17, 0, 0, 0, 0, 0, 0, 81, 8273],
   [0, 0, 0, 0, 12330, 0, 13685, 0, 0, 0, 0, 0, 0, 23678, 19056]⟩

/-- All security levels of `bike_defs.h` paired with their configured ring
size `R_BITS`, in the order LEVEL 0, 10, 11, 12, 13, 14, 15, 16, 17, 18,
1, 3 of `gf2x_inv.c`. -/
def levelTables : List (Nat × InvTables) :=
  [(2053, tablesLevel0), (7109, tablesLevel10), (773, tablesLevel11),
   (1019, tablesLevel12), (1283, tablesLevel13), (2029, tablesLevel14),
   (2053, tablesLevel15), (2069, tablesLevel16), (4021, tablesLevel17),
   (4099, tablesLevel18), (12323, tablesLevel1), (24659, tablesLevel3)]

/-- The supported set of ring sizes R (the distinct `R_BITS` values of
`bike_defs.h`). -/
def supportedR : List Nat :=
  [773, 1019, 1283, 2029, 2053, 2069, 4021, 4099, 7109, 12323, 24659]

/-- The hardcoded table selected for a given supported ring size `R`. -/
def tablesFor : Nat → InvTables
  | 773 => tablesLevel11
  | 1019 => tablesLevel12
  | 1283 => tablesLevel13
  | 2029 => tablesLevel14
  | 2053 => tablesLevel0
  | 2069 => tablesLevel16
  | 4021 => tablesLevel17
  | 4099 => tablesLevel18
  | 7109 => tablesLevel10
  | 24659 => tablesLevel3
  | _ => tablesLevel1

/-! ## Spec-side embedding: the pseudocode of spec section 4.2 -/

/-- One iteration of the section 4.2 pseudocode, written with mathematical
powers and products exactly as the spec states it:
`g = f^(2^exp0_k[i-1]); f = f*g; if exp1_k[i] != 0 then
g = f^(2^exp1_k[i]); t = t*g`. -/
def invertSpecStep {M : Type} [Monoid M] (tab : InvTables)
    (ft : M × M) (i : Nat) : M × M :=
  let g := ft.1 ^ 2 ^ tab.exp0_k.getD (i - 1) 0
  let f := ft.1 * g
  if tab.exp1_k.getD i 0 ≠ 0 then
    let g2 := f ^ 2 ^ tab.exp1_k.getD i 0
    (f, ft.2 * g2)
  else
    (f, ft.2)

/-- The section 4.2 pseudocode for `invert`: `f` and `t` both start at `a`,
the loop runs `i = 1 .. MAX_I-1`, and the result is the final squaring
`c = t^2`. -/
def invertSpec {M : Type} [Monoid M] (tab : InvTables) (a : M) : M :=
  let ft := (List.range' 1 (tab.max_i - 1)).foldl (invertSpecStep tab) (a, a)
  ft.2 ^ 2

/-! ## Instrumented embedding: the arithmetic-context call trace -/

/-- One call into the arithmetic context, as recorded by an instrumented
context: an unreduced squaring, a reduction, a k-squaring with its public
parameter `l`, or a multiplication. -/
inductive CtxCall where
  | sqr : CtxCall
  | red : CtxCall
  | k_sqr : Nat → CtxCall
  | mul : CtxCall
deriving DecidableEq, Repr

/-- `gf2x_mod_sqr_in_place`, additionally recording its two context calls. -/
def gf2x_mod_sqr_in_place_tr {α β : Type} (ctx : gf2x_ctx α β) (a : α) :
    α × List CtxCall :=
  (ctx.red (ctx.sqr a), [CtxCall.sqr, CtxCall.red])

/-- `repeated_squaring`, additionally recording its context calls. -/
def repeated_squaring_tr {α β : Type} (ctx : gf2x_ctx α β) (a : α) :
    Nat → α × List CtxCall
  | 0 => (a, [])
  | n + 1 =>
    let p := repeated_squaring_tr ctx a n
    let q := gf2x_mod_sqr_in_place_tr ctx p.1
    (q.1, p.2 ++ q.2)

/-- `k_square_or_repeat`, additionally recording its context calls. -/
def k_square_or_repeat_tr {α β : Type} (ctx : gf2x_ctx α β) (x : α)
    (k l : Nat) : α × List CtxCall :=
  if k ≤ K_SQR_THR then repeated_squaring_tr ctx x k
  else (ctx.k_sqr x l, [CtxCall.k_sqr l])

/-- One loop iteration of `gf2x_mod_inv`, additionally recording its
context calls. -/
def invStep_tr {α β : Type} (ctx : gf2x_ctx α β) (tab : InvTables)
    (s : α × α × List CtxCall) (i : Nat) : α × α × List CtxCall :=
  let gp := k_square_or_repeat_tr ctx s.1 (tab.exp0_k.getD (i - 1) 0)
      (tab.exp0_l.getD (i - 1) 0)
  let f := ctx.mul gp.1 s.1
  let tr := s.2.2 ++ gp.2 ++ [CtxCall.mul]
  if tab.exp1_k.getD i 0 ≠ 0 then
    let gp2 := k_square_or_repeat_tr ctx f (tab.exp1_k.getD i 0)
        (tab.exp1_l.getD i 0)
    (f, ctx.mul gp2.1 s.2.1, tr ++ gp2.2 ++ [CtxCall.mul])
  else
    (f, s.2.1, tr)

/-- `gf2x_mod_inv`, additionally recording the full sequence of
arithmetic-context calls it issues. -/
def gf2x_mod_inv_tr {α β : Type} (ctx : gf2x_ctx α β) (tab : InvTables)
    (a : α) : α × List CtxCall :=
  let s := (List.range' 1 (tab.max_i - 1)).foldl (invStep_tr ctx tab)
      (a, a, [])
  (ctx.red (ctx.sqr s.2.1), s.2.2 ++ [CtxCall.sqr, CtxCall.red])

/-- The context calls produced by one `k_square_or_repeat`, as a function of
the public parameters `k` and `l` alone. -/
def ksorTrace (k l : Nat) : List CtxCall :=
  if k ≤ K_SQR_THR then List.flatten (List.replicate k [CtxCall.sqr, CtxCall.red])
  else [CtxCall.k_sqr l]

/-- The context calls produced by loop iteration `i` of `gf2x_mod_inv`, as a
function of the public table alone. -/
def stepTrace (tab : InvTables) (i : Nat) : List CtxCall :=
  ksorTrace (tab.exp0_k.getD (i - 1) 0) (tab.exp0_l.getD (i - 1) 0) ++
    [CtxCall.mul] ++
    (if tab.exp1_k.getD i 0 ≠ 0 then
      ksorTrace (tab.exp1_k.getD i 0) (tab.exp1_l.getD i 0) ++ [CtxCall.mul]
    else [])

/-- The full context-call trace of `gf2x_mod_inv`, as a function of the
public table alone. -/
def callTrace (tab : InvTables) : List CtxCall :=
  ((List.range' 1 (tab.max_i - 1)).foldl
    (fun tr i => tr ++ stepTrace tab i) []) ++ [CtxCall.sqr, CtxCall.red]

/-! ## Buffer-level embedding: which buffers each issued call touches -/

/-- The local buffers of `gf2x_mod_inv` (plus its input `a` and output
`c`). -/
inductive Buf where
  | a : Buf
  | f : Buf
  | g : Buf
  | t : Buf
  | c : Buf
deriving DecidableEq, Repr

/-- One buffer-level operation issued by `gf2x_mod_inv`:
`repsq dst src k` is `repeated_squaring(&dst, &src, k, &sec_buf, &ctx)`,
`ksq dst src l` is `ctx.k_sqr(&dst, &src, l)`,
`mul dst x y` is `gf2x_mod_mul_with_ctx(&dst, &x, &y, &ctx)`,
`modsqr x` is the in-place `gf2x_mod_sqr_in_place(&x, &sec_buf, &ctx)`, and
`copy dst src` is the assignment `dst.val = src.val`. -/
inductive BufEvent where
  | repsq : Buf → Buf → Nat → BufEvent
  | ksq : Buf → Buf → Nat → BufEvent
  | mul : Buf → Buf → Buf → BufEvent
  | modsqr : Buf → BufEvent
  | copy : Buf → Buf → BufEvent
deriving DecidableEq, Repr

/-- The buffer-level operations of loop iteration `i` of `gf2x_mod_inv`:
exponentiation 0 into `g` from `f`, then `f = g*f`, then (when
`exp1_k[i] != 0`) exponentiation 1 into `g` from `f` and `t = g*t`. -/
def bufStepTrace (tab : InvTables) (i : Nat) : List BufEvent :=
  (if tab.exp0_k.getD (i - 1) 0 ≤ K_SQR_THR then
    [BufEvent.repsq Buf.g Buf.f (tab.exp0_k.getD (i - 1) 0)]
  else
    [BufEvent.ksq Buf.g Buf.f (tab.exp0_l.getD (i - 1) 0)]) ++
  [BufEvent.mul Buf.f Buf.g Buf.f] ++
  (if tab.exp1_k.getD i 0 ≠ 0 then
    (if tab.exp1_k.getD i 0 ≤ K_SQR_THR then
      [BufEvent.repsq Buf.g Buf.f (tab.exp1_k.getD i 0)]
    else
      [BufEvent.ksq Buf.g Buf.f (tab.exp1_l.getD i 0)]) ++
    [BufEvent.mul Buf.t Buf.g Buf.t]
  else [])

/-- The full buffer-level operation sequence of `gf2x_mod_inv`: the two
initializing copies `f.val = a->val`, `t.val = a->val`, the loop, the final
in-place squaring of `t`, and the output copy `c->val = t.val`. -/
def bufTrace (tab : InvTables) : List BufEvent :=
  [BufEvent.copy Buf.f Buf.a, BufEvent.copy Buf.t Buf.a] ++
  ((List.range' 1 (tab.max_i - 1)).foldl
    (fun tr i => tr ++ bufStepTrace tab i) []) ++
  [BufEvent.modsqr Buf.t, BufEvent.copy Buf.c Buf.t]

/-! ## Scoped embedding: the scratch locals and their deferred cleanup -/

/-- The scratch locals of one `gf2x_mod_inv` call: the ring elements `f`,
`g`, `t` and the double-width buffer `sec_buf`. -/
structure InvLocals (α β : Type) where
  f : α
  g : α
  t : α
  sec_buf : β

/-- `repeated_squaring`, additionally threading the value left in the
double-width secure buffer (`ctx->sqr` writes it, `ctx->red` reads it). -/
def repeated_squaring_st {α β : Type} (ctx : gf2x_ctx α β) (a : α)
    (buf : β) : Nat → α × β
  | 0 => (a, buf)
  | n + 1 =>
    let p := repeated_squaring_st ctx a buf n
    (ctx.red (ctx.sqr p.1), ctx.sqr p.1)

/-- `k_square_or_repeat`, additionally threading the double-width buffer
(only the repeated-squaring branch touches it). -/
def k_square_or_repeat_st {α β : Type} (ctx : gf2x_ctx α β) (x : α)
    (k l : Nat) (buf : β) : α × β :=
  if k ≤ K_SQR_THR then repeated_squaring_st ctx x buf k
  else (ctx.k_sqr x l, buf)

/-- One loop iteration of `gf2x_mod_inv` acting on all four scratch
locals. -/
def invStep_st {α β : Type} (ctx : gf2x_ctx α β) (tab : InvTables)
    (s : InvLocals α β) (i : Nat) : InvLocals α β :=
  let gp := k_square_or_repeat_st ctx s.f (tab.exp0_k.getD (i - 1) 0)
      (tab.exp0_l.getD (i - 1) 0) s.sec_buf
  let f := ctx.mul gp.1 s.f
  if tab.exp1_k.getD i 0 ≠ 0 then
    let gp2 := k_square_or_repeat_st ctx f (tab.exp1_k.getD i 0)
        (tab.exp1_l.getD i 0) gp.2
    ⟨f, gp2.1, ctx.mul gp2.1 s.t, gp2.2⟩
  else
    ⟨f, gp.1, s.t, gp.2⟩

/-- The body of `gf2x_mod_inv` with all four scratch locals tracked: they
are zero-initialized (`= {0}`), `f` and `t` are then set to `a`, the loop
runs, the final squaring updates `t` and `sec_buf` in place, and the result
is copied out of `t`. Returns the output value together with the locals as
they stand at the point the scope is about to exit. -/
def gf2x_mod_inv_locals {α β : Type} [Zero α] [Zero β]
    (ctx : gf2x_ctx α β) (tab : InvTables) (a : α) : α × InvLocals α β :=
  let s0 : InvLocals α β := ⟨a, 0, a, 0⟩
  let s := (List.range' 1 (tab.max_i - 1)).foldl (invStep_st ctx tab) s0
  (ctx.red (ctx.sqr s.t), ⟨s.f, s.g, ctx.red (ctx.sqr s.t), ctx.sqr s.t⟩)

/-- Modelled from the spec: `DEFER_CLEANUP(x, cleanup)` comes from
`cleanup.h`, which is not under src/; per spec sections 5 and 9 it
registers a zeroizing cleanup for `x` that runs when the enclosing scope
exits, on every exit path. `gf2x_mod_inv` registers all four scratch
locals (`f`, `g`, `t`, `sec_buf`), so applying the deferred cleanups
zeroizes each of them. -/
def applyDeferredCleanups {α β : Type} [Zero α] [Zero β]
    (_ : InvLocals α β) : InvLocals α β :=
  ⟨0, 0, 0, 0⟩

/-- `gf2x_mod_inv` as a scope: run the body (which copies the result out of
`t` into `c`), then run the deferred cleanups registered for the scratch
locals. -/
def gf2x_mod_inv_scoped {α β : Type} [Zero α] [Zero β]
    (ctx : gf2x_ctx α β) (tab : InvTables) (a : α) : α × InvLocals α β :=
  let p := gf2x_mod_inv_locals ctx tab a
  (p.1, applyDeferredCleanups p.2)

/-! ## The parameter derivation of spec section 4.1 -/

/-- `MAX_I = floor(log2(R - 2)) + 1`, as in the derivation comment of
gf2x_inv.c and spec section 4.1. -/
def derivedMaxI (R : Nat) : Nat := Nat.log2 (R - 2) + 1

/-- `exp0_k = [2^i for i in range(max_i)]`, as in the derivation comment of
gf2x_inv.c and spec section 4.1. -/
def derivedExp0K (R : Nat) : List Nat :=
  (List.range (derivedMaxI R)).map (fun i => 2 ^ i)

/-- `exp1_k = [(r-2)%(2^i) if ((r-2) & (1<<i)) else 0 for i in
range(max_i)]`, as in the derivation comment of gf2x_inv.c and spec
section 4.1. -/
def derivedExp1K (R : Nat) : List Nat :=
  (List.range (derivedMaxI R)).map
    (fun i => if (R - 2).testBit i then (R - 2) % 2 ^ i else 0)

/-- `modinv(x, R)` computed via Fermat (`x^(R-2) mod R`); only used by the
derivation on prime `R`. -/
def modinvFermat (x R : Nat) : Nat := x ^ (R - 2) % R

/-- `exp0_l = [inverse_mod((2^k) % r, r) for k in exp0_k]`, as in the
derivation comment of gf2x_inv.c and spec section 4.1. -/
def derivedExp0L (R : Nat) : List Nat :=
  (derivedExp0K R).map (fun k => modinvFermat (2 ^ k % R) R)

/-- `exp1_l = [inverse_mod((2^k) % r, r) if k != 0 else 0 for k in
exp1_k]`, as in the derivation comment of gf2x_inv.c and spec
section 4.1. -/
def derivedExp1L (R : Nat) : List Nat :=
  (derivedExp1K R).map
    (fun k => if k ≠ 0 then modinvFermat (2 ^ k % R) R else 0)

/-- The error taxonomy of spec section 7 relevant to table derivation. -/
inductive DeriveError where
  | InvalidParameter : DeriveError
deriving DecidableEq, Repr

/-- Modelled from the spec: the Parameter Deriver of section 4.1 is not
present under src/ (the tables are hardcoded per level; the derivation
exists only as the Sage recipe in the gf2x_inv.c comment). Per spec
sections 4.1 and 7 it fails with `InvalidParameter` when R is not prime,
R >= 32768 (the bound `bike_static_assert(R_BITS < 32768)` of bike_defs.h),
or R < 3; otherwise it produces the derived tables. -/
def derive_tables (R : Nat) : Except DeriveError InvTables :=
  if ¬ Nat.Prime R ∨ 32768 ≤ R ∨ R < 3 then
    Except.error DeriveError.InvalidParameter
  else
    Except.ok ⟨derivedMaxI R, derivedExp0K R, derivedExp0L R,
      derivedExp1K R, derivedExp1L R⟩

/-! ## Remaining definitions: the ring, table shape, and witness contexts -/

/-- The ring F_2[x]/(x^R - 1) in which `gf2x_mod_inv` operates (the
mathematical reading of `pad_r_t` with clean padding). -/
abbrev Rq (R : Nat) := AdjoinRoot ((Polynomial.X : Polynomial (ZMod 2)) ^ R - 1)

/-- The section 4.1 shape of an exponent-chain k-table for ring size `R`:
at least one step, odd exponent `R-2` representable in `max_i` bits,
`exp0_k[i] = 2^i`, and `exp1_k[i]` the masked remainder of `R-2` exactly at
its set bits. -/
def tableShapeOK (R : Nat) (tab : InvTables) : Prop :=
  1 ≤ tab.max_i ∧ (R - 2) % 2 = 1 ∧ R - 2 < 2 ^ tab.max_i ∧
  (∀ i ∈ List.range tab.max_i, tab.exp0_k.getD i 0 = 2 ^ i) ∧
  (∀ i ∈ List.range tab.max_i, 1 ≤ i →
    tab.exp1_k.getD i 0 =
      if (R - 2).testBit i then (R - 2) % 2 ^ i else 0)

instance tableShapeOK_decidable (R : Nat) (tab : InvTables) :
    Decidable (tableShapeOK R tab) := by
  unfold tableShapeOK
  infer_instance

/-- A buffer-level event respects the in-place discipline: every issued
multiplication writes its result into a buffer that is also one of its
source operands (all other events do so trivially or by construction). -/
def mulAliasOK : BufEvent → Bool
  | BufEvent.mul dst x y => dst == x || dst == y
  | _ => true

/-- The exponent `k` that a table associates with a k-squaring parameter
`l` (used to build concrete arithmetic contexts meeting the section 6
k-squaring contract). -/
def kOfL (tab : InvTables) (l : Nat) : Nat :=
  (List.lookup l ((tab.exp0_l.zip tab.exp0_k) ++
    (tab.exp1_l.zip tab.exp1_k))).getD 0

/-- A concrete arithmetic context over the multiplicative monoid of `Nat`,
for exercising the generic theorems on small inputs. -/
def natCtx (tab : InvTables) : gf2x_ctx Nat Nat :=
  ⟨fun x => x * x, fun x => x, fun x l => x ^ 2 ^ kOfL tab l,
    fun x y => x * y⟩

/-! ## Semantics of the squaring helpers -/

/-- Under the section 6 contract for `square`/`reduce` (their composition is
modular squaring), `repeated_squaring` computes `a^(2^n)`. -/
theorem repeated_squaring_pow {M β : Type} [Monoid M] (ctx : gf2x_ctx M β)
    (hsqr : ∀ x, ctx.red (ctx.sqr x) = x * x) (a : M) (n : Nat) :
    repeated_squaring ctx a n = a ^ 2 ^ n := by
  induction n with
  | zero => simp [repeated_squaring]
  | succ n ih =>
    have h2 : 2 ^ n + 2 ^ n = 2 ^ (n + 1) := by rw [pow_succ]; omega
    rw [repeated_squaring, gf2x_mod_sqr_in_place, hsqr, ih, ← pow_add, h2]

/-- Under the section 6 contracts, `k_square_or_repeat` computes `x^(2^k)`
whichever branch the threshold selects. -/
theorem k_square_or_repeat_pow {M β : Type} [Monoid M] (ctx : gf2x_ctx M β)
    (hsqr : ∀ x, ctx.red (ctx.sqr x) = x * x) (x : M) (k l : Nat)
    (hksq : ∀ y, ctx.k_sqr y l = y ^ 2 ^ k) :
    k_square_or_repeat ctx x k l = x ^ 2 ^ k := by
  unfold k_square_or_repeat
  split
  · exact repeated_squaring_pow ctx hsqr x k
  · exact hksq x

/-! ## Bridging: the code's embedding equals the spec pseudocode -/

theorem invStep_eq_specStep {M β : Type} [CommMonoid M] (ctx : gf2x_ctx M β)
    (tab : InvTables)
    (hsqr : ∀ x, ctx.red (ctx.sqr x) = x * x)
    (hmul : ∀ x y, ctx.mul x y = x * y)
    (hk0 : ∀ i, i < tab.max_i → ∀ x,
      ctx.k_sqr x (tab.exp0_l.getD i 0) = x ^ 2 ^ tab.exp0_k.getD i 0)
    (hk1 : ∀ i, i < tab.max_i → tab.exp1_k.getD i 0 ≠ 0 → ∀ x,
      ctx.k_sqr x (tab.exp1_l.getD i 0) = x ^ 2 ^ tab.exp1_k.getD i 0)
    (i : Nat) (hi1 : 1 ≤ i) (hi : i < tab.max_i) (ft : M × M) :
    invStep ctx tab ft i = invertSpecStep tab ft i := by
  have hg : k_square_or_repeat ctx ft.1 (tab.exp0_k.getD (i - 1) 0)
      (tab.exp0_l.getD (i - 1) 0) = ft.1 ^ 2 ^ tab.exp0_k.getD (i - 1) 0 :=
    k_square_or_repeat_pow ctx hsqr ft.1 _ _ (hk0 (i - 1) (by omega))
  simp only [invStep, invertSpecStep, hg, hmul]
  split_ifs with h1
  · have hg2 : ∀ x, k_square_or_repeat ctx x (tab.exp1_k.getD i 0)
        (tab.exp1_l.getD i 0) = x ^ 2 ^ tab.exp1_k.getD i 0 := fun x =>
      k_square_or_repeat_pow ctx hsqr x _ _ (hk1 i hi h1)
    rw [hg2, mul_comm (ft.1 ^ 2 ^ tab.exp0_k.getD (i - 1) 0) ft.1,
      mul_comm _ ft.2]
  · rw [mul_comm]

/-- The code's `gf2x_mod_inv`, run with any arithmetic context meeting the
section 6 contracts, equals the straightforward embedding of the section 4.2
pseudocode. -/
theorem gf2x_mod_inv_eq_invertSpec {M β : Type} [CommMonoid M]
    (ctx : gf2x_ctx M β) (tab : InvTables)
    (hsqr : ∀ x, ctx.red (ctx.sqr x) = x * x)
    (hmul : ∀ x y, ctx.mul x y = x * y)
    (hk0 : ∀ i, i < tab.max_i → ∀ x,
      ctx.k_sqr x (tab.exp0_l.getD i 0) = x ^ 2 ^ tab.exp0_k.getD i 0)
    (hk1 : ∀ i, i < tab.max_i → tab.exp1_k.getD i 0 ≠ 0 → ∀ x,
      ctx.k_sqr x (tab.exp1_l.getD i 0) = x ^ 2 ^ tab.exp1_k.getD i 0)
    (a : M) :
    gf2x_mod_inv ctx tab a = invertSpec tab a := by
  unfold gf2x_mod_inv invertSpec
  have hfold : (List.range' 1 (tab.max_i - 1)).foldl (invStep ctx tab) (a, a)
      = (List.range' 1 (tab.max_i - 1)).foldl (invertSpecStep tab) (a, a) := by
    apply List.foldl_ext
    intro ft i hmem
    have hm := List.mem_range'_1.mp hmem
    exact invStep_eq_specStep ctx tab hsqr hmul hk0 hk1 i hm.1 (by omega) ft
  rw [hfold, gf2x_mod_sqr_in_place, hsqr, pow_two]

/-! ## Exponent accounting for the spec pseudocode -/

theorem mod_two_pow_succ_testBit (e i : Nat) :
    e % 2 ^ (i + 1) = e % 2 ^ i + 2 ^ i * (if e.testBit i then 1 else 0) := by
  rw [pow_succ, Nat.mod_mul]
  congr 1
  rw [Nat.testBit_to_div_mod]
  rcases Nat.mod_two_eq_zero_or_one (e / 2 ^ i) with h | h <;> simp [h]

theorem chain_exp_arith (p q : Nat) (hp : 1 ≤ p) (hq : 1 ≤ q) :
    (q - 1) + (p - 1) * q = p * q - 1 := by
  have hpq : 1 ≤ p * q := Nat.one_le_iff_ne_zero.mpr (by positivity)
  zify [hp, hq, hpq]
  ring

theorem invertSpec_loop_inv {M : Type} [Monoid M] (tab : InvTables) (a : M)
    (e : Nat) (hodd : e % 2 = 1)
    (hk0 : ∀ i, i < tab.max_i → tab.exp0_k.getD i 0 = 2 ^ i)
    (hk1 : ∀ i, 1 ≤ i → i < tab.max_i →
      tab.exp1_k.getD i 0 = if e.testBit i then e % 2 ^ i else 0) :
    ∀ n, n + 1 ≤ tab.max_i →
      (List.range' 1 n).foldl (invertSpecStep tab) (a, a) =
        (a ^ (2 ^ 2 ^ n - 1), a ^ (2 ^ (e % 2 ^ (n + 1)) - 1)) := by
  intro n
  induction n with
  | zero =>
    intro _
    simp [pow_one, pow_zero, hodd]
  | succ n ih =>
    intro hn
    have hrange : List.range' 1 (n + 1) = List.range' 1 n ++ [1 + n] :=
      List.range'_1_concat 1 n
    rw [hrange, List.foldl_append, ih (by omega), List.foldl_cons,
      List.foldl_nil, (by omega : 1 + n = n + 1)]
    have h1le : (1:Nat) ≤ 2 ^ 2 ^ n := Nat.one_le_two_pow
    -- the f accumulator after the exponentiation-0 step
    have hfexp : a ^ (2 ^ 2 ^ n - 1) * (a ^ (2 ^ 2 ^ n - 1)) ^ 2 ^ 2 ^ n =
        a ^ (2 ^ 2 ^ (n + 1) - 1) := by
      have hEE : 2 ^ n + 2 ^ n = 2 ^ (n + 1) := by rw [pow_succ]; omega
      rw [← pow_mul, ← pow_add, chain_exp_arith _ _ h1le h1le, ← pow_add, hEE]
    simp only [invertSpecStep, Nat.add_sub_cancel,
      hk0 n (by omega : n < tab.max_i), hfexp]
    cases hbit : e.testBit (n + 1) with
    | false =>
      -- bit (n+1) of e is clear: the exponentiation-1 step is skipped
      have hz : tab.exp1_k.getD (n + 1) 0 = 0 := by
        rw [hk1 (n + 1) (by omega) (by omega)]
        simp [hbit]
      have hmod : e % 2 ^ (n + 1 + 1) = e % 2 ^ (n + 1) := by
        rw [mod_two_pow_succ_testBit, hbit]
        simp
      rw [if_neg (by rw [hz]; simp), hmod]
    | true =>
      -- bit (n+1) of e is set: the exponentiation-1 step runs
      have hsodd : e % 2 ^ (n + 1) % 2 = 1 := by
        rw [Nat.mod_mod_of_dvd e (dvd_pow_self 2 (Nat.succ_ne_zero n))]
        exact hodd
      have hkv : tab.exp1_k.getD (n + 1) 0 = e % 2 ^ (n + 1) := by
        rw [hk1 (n + 1) (by omega) (by omega)]
        simp [hbit]
      have hmod : e % 2 ^ (n + 1 + 1) = e % 2 ^ (n + 1) + 2 ^ (n + 1) := by
        rw [mod_two_pow_succ_testBit, hbit]
        simp
      rw [if_pos (by rw [hkv]; omega)]
      simp only [Prod.mk.injEq]
      refine ⟨trivial, ?_⟩
      have hEE : 2 ^ (n + 1) + e % 2 ^ (n + 1) = e % 2 ^ (n + 1 + 1) := by
        omega
      rw [hkv, ← pow_mul, ← pow_add,
        chain_exp_arith _ _ Nat.one_le_two_pow Nat.one_le_two_pow, ← pow_add,
        hEE]

/-- Run on a table meeting the section 4.1 shape for exponent `e`, the
spec pseudocode computes `a^(2*(2^e - 1))`. -/
theorem invertSpec_pow {M : Type} [Monoid M] (tab : InvTables) (a : M)
    (e : Nat) (hodd : e % 2 = 1) (hmx : 1 ≤ tab.max_i)
    (hlt : e < 2 ^ tab.max_i)
    (hk0 : ∀ i, i < tab.max_i → tab.exp0_k.getD i 0 = 2 ^ i)
    (hk1 : ∀ i, 1 ≤ i → i < tab.max_i →
      tab.exp1_k.getD i 0 = if e.testBit i then e % 2 ^ i else 0) :
    invertSpec tab a = a ^ (2 * (2 ^ e - 1)) := by
  unfold invertSpec
  have h := invertSpec_loop_inv tab a e hodd hk0 hk1 (tab.max_i - 1)
    (by omega)
  have hmi : tab.max_i - 1 + 1 = tab.max_i := by omega
  rw [hmi] at h
  rw [h, Nat.mod_eq_of_lt hlt, ← pow_mul]
  congr 1
  omega

/-! ## The ring F_2[x]/(x^R - 1) -/

theorem Rq_root_pow_eq_one (R : Nat) :
    (AdjoinRoot.root ((Polynomial.X : Polynomial (ZMod 2)) ^ R - 1)) ^ R = 1 := by
  have h : AdjoinRoot.mk ((Polynomial.X : Polynomial (ZMod 2)) ^ R - 1)
      ((Polynomial.X : Polynomial (ZMod 2)) ^ R - 1) = 0 := AdjoinRoot.mk_self
  rw [map_sub, map_pow, AdjoinRoot.mk_X, map_one, sub_eq_zero] at h
  exact h

/-- Raising a binary polynomial to the power `2^m` is `expand` by `2^m`
(iterated freshman's dream over `ZMod 2`). -/
theorem zmod2_pow_two_pow_expand (q : Polynomial (ZMod 2)) (m : Nat) :
    q ^ 2 ^ m = Polynomial.expand (ZMod 2) (2 ^ m) q := by
  induction m with
  | zero =>
    rw [pow_zero, pow_one, Polynomial.expand_one]
  | succ m ih =>
    have hfrob : frobenius (ZMod 2) 2 = RingHom.id (ZMod 2) :=
      RingHom.ext fun x => ZMod.pow_card x
    have hq2 : ∀ r : Polynomial (ZMod 2),
        Polynomial.expand (ZMod 2) 2 r = r ^ 2 := by
      intro r
      have h := Polynomial.expand_char 2 r
      rwa [hfrob, Polynomial.map_id] at h
    rw [pow_succ, pow_mul, ih, ← hq2, Polynomial.expand_expand,
      Nat.mul_comm 2 (2 ^ m)]

/-- Fermat: `2^(R-1) = 1 (mod R)` for an odd prime `R`. -/
theorem fermat_two_pow_mod (R : Nat) (hR : Nat.Prime R) (hR2 : R ≠ 2) :
    2 ^ (R - 1) % R = 1 := by
  haveI : Fact (Nat.Prime R) := ⟨hR⟩
  have h2 : (2 : ZMod R) ≠ 0 := by
    intro h
    have hd : ((2 : ℕ) : ZMod R) = 0 := by exact_mod_cast h
    rw [ZMod.natCast_zmod_eq_zero_iff_dvd] at hd
    exact hR2 ((Nat.prime_dvd_prime_iff_eq hR Nat.prime_two).mp hd)
  have hpow : (2 : ZMod R) ^ (R - 1) = 1 := ZMod.pow_card_sub_one_eq_one h2
  have hcast : ((2 ^ (R - 1) : ℕ) : ZMod R) = ((1 : ℕ) : ZMod R) := by
    push_cast
    rw [hpow]
  have hmodeq := (ZMod.natCast_eq_natCast_iff _ _ _).mp hcast
  have h1 : 1 % R = 1 := Nat.mod_eq_of_lt hR.one_lt
  unfold Nat.ModEq at hmodeq
  omega

/-- The key ring identity: in F_2[x]/(x^R - 1) with R an odd prime, the
`(R-1)`-fold Frobenius is the identity: `a^(2^(R-1)) = a` for every `a`
(because `2^(R-1) = 1 (mod R)` relabels the coefficients identically). -/
theorem Rq_pow_two_pow_card (R : Nat) (hR : Nat.Prime R) (hR2 : R ≠ 2)
    (a : Rq R) : a ^ 2 ^ (R - 1) = a := by
  obtain ⟨p, rfl⟩ := AdjoinRoot.mk_surjective a
  have hroot : (AdjoinRoot.root ((Polynomial.X : Polynomial (ZMod 2)) ^ R - 1))
      ^ 2 ^ (R - 1) =
      AdjoinRoot.root ((Polynomial.X : Polynomial (ZMod 2)) ^ R - 1) := by
    conv_lhs => rw [← Nat.div_add_mod (2 ^ (R - 1)) R]
    rw [pow_add, pow_mul, Rq_root_pow_eq_one, one_pow, one_mul,
      fermat_two_pow_mod R hR hR2, pow_one]
  rw [← map_pow, zmod2_pow_two_pow_expand, ← AdjoinRoot.aeval_eq,
    Polynomial.expand_aeval, hroot, AdjoinRoot.aeval_eq]

/-! ## Shape of the hardcoded tables, and inversion correctness -/

theorem supported_shape : ∀ R ∈ supportedR, tableShapeOK R (tablesFor R) := by
  decide

theorem supported_prime : ∀ R ∈ supportedR, Nat.Prime R := by
  intro R hR
  fin_cases hR <;> norm_num

theorem supported_ge3 : ∀ R ∈ supportedR, 3 ≤ R := by decide

/-- Inversion correctness over F_2[x]/(x^R - 1), shared backbone: for a
supported R, an arithmetic context meeting the section 6 contracts on the
level's table, and invertible `a`, the result of `gf2x_mod_inv` is a left
inverse of `a`. -/
theorem gf2x_mod_inv_mul_cancel (R : Nat) (hR : R ∈ supportedR) {β : Type}
    (ctx : gf2x_ctx (Rq R) β)
    (hsqr : ∀ x, ctx.red (ctx.sqr x) = x * x)
    (hmul : ∀ x y, ctx.mul x y = x * y)
    (hk0 : ∀ i, i < (tablesFor R).max_i → ∀ x,
      ctx.k_sqr x ((tablesFor R).exp0_l.getD i 0) =
        x ^ 2 ^ (tablesFor R).exp0_k.getD i 0)
    (hk1 : ∀ i, i < (tablesFor R).max_i →
      (tablesFor R).exp1_k.getD i 0 ≠ 0 → ∀ x,
      ctx.k_sqr x ((tablesFor R).exp1_l.getD i 0) =
        x ^ 2 ^ (tablesFor R).exp1_k.getD i 0)
    (a : Rq R) (ha : IsUnit a) :
    gf2x_mod_inv ctx (tablesFor R) a * a = 1 := by
  obtain ⟨hmx, hodd, hlt, hsh0, hsh1⟩ := supported_shape R hR
  have hprime := supported_prime R hR
  have h3 := supported_ge3 R hR
  have hbridge := gf2x_mod_inv_eq_invertSpec ctx (tablesFor R) hsqr hmul hk0
    hk1 a
  have hk0' : ∀ i, i < (tablesFor R).max_i →
      (tablesFor R).exp0_k.getD i 0 = 2 ^ i := fun i hi =>
    hsh0 i (List.mem_range.mpr hi)
  have hk1' : ∀ i, 1 ≤ i → i < (tablesFor R).max_i →
      (tablesFor R).exp1_k.getD i 0 =
        if (R - 2).testBit i then (R - 2) % 2 ^ i else 0 := fun i h1 hi =>
    hsh1 i (List.mem_range.mpr hi) h1
  have hpow := invertSpec_pow (tablesFor R) a (R - 2) hodd hmx hlt hk0' hk1'
  rw [hbridge, hpow]
  have hne2 : R ≠ 2 := by omega
  have hfix := Rq_pow_two_pow_card R hprime hne2 a
  have h1le : 1 ≤ 2 ^ (R - 2) := Nat.one_le_two_pow
  have hexp : 2 * (2 ^ (R - 2) - 1) + 1 + 1 = 2 ^ (R - 1) := by
    have h22 : 2 ^ (R - 1) = 2 ^ (R - 2) * 2 := by
      rw [← pow_succ]
      congr 1
      omega
    omega
  have key2 : a ^ (2 * (2 ^ (R - 2) - 1)) * a * a = 1 * a := by
    rw [one_mul, ← pow_succ, ← pow_succ, hexp, hfix]
  exact ha.mul_right_cancel key2

/-! ## Trace lemmas: the instrumented run and the table-only trace agree -/

theorem flatten_replicate_comm {X : Type} (n : Nat) (l : List X) :
    List.flatten (List.replicate n l) ++ l =
      l ++ List.flatten (List.replicate n l) := by
  induction n with
  | zero => simp
  | succ n ih =>
    rw [List.replicate_succ, List.flatten_cons, List.append_assoc, ih]

theorem flatten_replicate_concat {X : Type} (n : Nat) (l : List X) :
    List.flatten (List.replicate (n + 1) l) =
      List.flatten (List.replicate n l) ++ l := by
  rw [List.replicate_succ, List.flatten_cons, ← flatten_replicate_comm]

theorem repeated_squaring_tr_snd {α β : Type} (ctx : gf2x_ctx α β) (a : α)
    (n : Nat) : (repeated_squaring_tr ctx a n).2 =
      List.flatten (List.replicate n [CtxCall.sqr, CtxCall.red]) := by
  induction n with
  | zero => rfl
  | succ n ih =>
    rw [flatten_replicate_concat, repeated_squaring_tr, ← ih]
    rfl

theorem repeated_squaring_tr_fst {α β : Type} (ctx : gf2x_ctx α β) (a : α)
    (n : Nat) : (repeated_squaring_tr ctx a n).1 = repeated_squaring ctx a n := by
  induction n with
  | zero => rfl
  | succ n ih =>
    rw [repeated_squaring_tr, repeated_squaring, ← ih]
    rfl

theorem k_square_or_repeat_tr_snd {α β : Type} (ctx : gf2x_ctx α β) (x : α)
    (k l : Nat) : (k_square_or_repeat_tr ctx x k l).2 = ksorTrace k l := by
  unfold k_square_or_repeat_tr ksorTrace
  split
  · exact repeated_squaring_tr_snd ctx x k
  · rfl

theorem k_square_or_repeat_tr_fst {α β : Type} (ctx : gf2x_ctx α β) (x : α)
    (k l : Nat) :
    (k_square_or_repeat_tr ctx x k l).1 = k_square_or_repeat ctx x k l := by
  unfold k_square_or_repeat_tr k_square_or_repeat
  split
  · exact repeated_squaring_tr_fst ctx x k
  · rfl

theorem invStep_tr_trace {α β : Type} (ctx : gf2x_ctx α β) (tab : InvTables)
    (s : α × α × List CtxCall) (i : Nat) :
    (invStep_tr ctx tab s i).2.2 = s.2.2 ++ stepTrace tab i := by
  simp only [invStep_tr, stepTrace]
  split_ifs with h <;>
    simp [k_square_or_repeat_tr_snd, List.append_assoc]

theorem invStep_tr_state {α β : Type} (ctx : gf2x_ctx α β) (tab : InvTables)
    (s : α × α × List CtxCall) (i : Nat) :
    ((invStep_tr ctx tab s i).1, (invStep_tr ctx tab s i).2.1) =
      invStep ctx tab (s.1, s.2.1) i := by
  simp only [invStep_tr, invStep, k_square_or_repeat_tr_fst]
  split_ifs with h <;> rfl

theorem foldl_append_shift {X : Type} (f : Nat → List X) (l : List Nat) :
    ∀ init : List X, l.foldl (fun tr i => tr ++ f i) init =
      init ++ l.foldl (fun tr i => tr ++ f i) [] := by
  induction l with
  | nil => intro init; simp
  | cons j l ih =>
    intro init
    rw [List.foldl_cons, ih (init ++ f j), List.foldl_cons,
      ih ([] ++ f j)]
    simp [List.append_assoc]

theorem foldl_invStep_tr_trace {α β : Type} (ctx : gf2x_ctx α β)
    (tab : InvTables) (l : List Nat) :
    ∀ s : α × α × List CtxCall,
      (l.foldl (invStep_tr ctx tab) s).2.2 =
        s.2.2 ++ l.foldl (fun tr i => tr ++ stepTrace tab i) [] := by
  induction l with
  | nil => intro s; simp
  | cons j l ih =>
    intro s
    rw [List.foldl_cons, ih, invStep_tr_trace, List.foldl_cons,
      foldl_append_shift (stepTrace tab) l ([] ++ stepTrace tab j)]
    simp [List.append_assoc]

theorem foldl_invStep_tr_state {α β : Type} (ctx : gf2x_ctx α β)
    (tab : InvTables) (l : List Nat) :
    ∀ s : α × α × List CtxCall,
      ((l.foldl (invStep_tr ctx tab) s).1,
        (l.foldl (invStep_tr ctx tab) s).2.1) =
      l.foldl (invStep ctx tab) (s.1, s.2.1) := by
  induction l with
  | nil => intro s; rfl
  | cons j l ih =>
    intro s
    rw [List.foldl_cons, ih, invStep_tr_state, List.foldl_cons]

/-- The trace recorded by the instrumented `gf2x_mod_inv` is exactly the
table-only trace: no part of it depends on the input value. -/
theorem gf2x_mod_inv_tr_trace {α β : Type} (ctx : gf2x_ctx α β)
    (tab : InvTables) (a : α) :
    (gf2x_mod_inv_tr ctx tab a).2 = callTrace tab := by
  simp only [gf2x_mod_inv_tr, callTrace]
  rw [foldl_invStep_tr_trace]
  simp

/-- The instrumentation is faithful: the value computed by the traced
embedding is the value computed by `gf2x_mod_inv`. -/
theorem gf2x_mod_inv_tr_fst {α β : Type} (ctx : gf2x_ctx α β)
    (tab : InvTables) (a : α) :
    (gf2x_mod_inv_tr ctx tab a).1 = gf2x_mod_inv ctx tab a := by
  simp only [gf2x_mod_inv_tr, gf2x_mod_inv, gf2x_mod_sqr_in_place]
  have h := foldl_invStep_tr_state ctx tab (List.range' 1 (tab.max_i - 1))
    (a, a, [])
  have h2 := congrArg Prod.snd h
  simp only at h2
  rw [h2]

/-! ## Locals lemmas: the scoped run computes the same result -/

theorem repeated_squaring_st_fst {α β : Type} (ctx : gf2x_ctx α β) (a : α)
    (buf : β) (n : Nat) :
    (repeated_squaring_st ctx a buf n).1 = repeated_squaring ctx a n := by
  induction n with
  | zero => rfl
  | succ n ih =>
    rw [repeated_squaring_st, repeated_squaring, gf2x_mod_sqr_in_place, ← ih]

theorem k_square_or_repeat_st_fst {α β : Type} (ctx : gf2x_ctx α β) (x : α)
    (k l : Nat) (buf : β) :
    (k_square_or_repeat_st ctx x k l buf).1 = k_square_or_repeat ctx x k l := by
  unfold k_square_or_repeat_st k_square_or_repeat
  split
  · exact repeated_squaring_st_fst ctx x buf k
  · rfl

theorem invStep_st_proj {α β : Type} (ctx : gf2x_ctx α β) (tab : InvTables)
    (s : InvLocals α β) (i : Nat) :
    ((invStep_st ctx tab s i).f, (invStep_st ctx tab s i).t) =
      invStep ctx tab (s.f, s.t) i := by
  simp only [invStep_st, invStep, k_square_or_repeat_st_fst]
  split_ifs with h <;> rfl

theorem foldl_invStep_st_proj {α β : Type} (ctx : gf2x_ctx α β)
    (tab : InvTables) (l : List Nat) :
    ∀ s : InvLocals α β,
      ((l.foldl (invStep_st ctx tab) s).f, (l.foldl (invStep_st ctx tab) s).t)
        = l.foldl (invStep ctx tab) (s.f, s.t) := by
  induction l with
  | nil => intro s; rfl
  | cons j l ih =>
    intro s
    rw [List.foldl_cons, ih, invStep_st_proj, List.foldl_cons]

/-- The scoped body computes the same output value as `gf2x_mod_inv`: the
result is copied out of `t` before the deferred cleanups run. -/
theorem gf2x_mod_inv_locals_fst {α β : Type} [Zero α] [Zero β]
    (ctx : gf2x_ctx α β) (tab : InvTables) (a : α) :
    (gf2x_mod_inv_locals ctx tab a).1 = gf2x_mod_inv ctx tab a := by
  simp only [gf2x_mod_inv_locals, gf2x_mod_inv, gf2x_mod_sqr_in_place]
  have h := foldl_invStep_st_proj ctx tab (List.range' 1 (tab.max_i - 1))
    ⟨a, 0, a, 0⟩
  have h2 := congrArg Prod.snd h
  simp only at h2
  rw [h2]

/-! ## Buffer-trace lemmas: every multiplication aliases its destination -/

theorem bufStepTrace_all_alias (tab : InvTables) (i : Nat) :
    (bufStepTrace tab i).all mulAliasOK = true := by
  unfold bufStepTrace
  split_ifs <;> rfl

theorem foldl_append_all {X : Type} (p : X → Bool) (f : Nat → List X)
    (hf : ∀ i, (f i).all p = true) (l : List Nat) :
    ∀ init : List X, init.all p = true →
      ((l.foldl (fun tr i => tr ++ f i) init).all p) = true := by
  induction l with
  | nil => intro init hinit; exact hinit
  | cons j l ih =>
    intro init hinit
    rw [List.foldl_cons]
    exact ih (init ++ f j) (by rw [List.all_append, hinit, hf j]; rfl)

theorem bufTrace_all_alias (tab : InvTables) :
    (bufTrace tab).all mulAliasOK = true := by
  unfold bufTrace
  rw [List.all_append, List.all_append]
  rw [foldl_append_all mulAliasOK (bufStepTrace tab)
    (bufStepTrace_all_alias tab) (List.range' 1 (tab.max_i - 1)) [] rfl]
  rfl

/-! ## Claim theorems -/

/-- Claim C1: for every prime R in the supported set and every invertible
ring element `a` of F_2[x]/(x^R - 1), `gf2x_mod_inv` returns a ring element
`c` with `c * a = 1` (the constant polynomial 1), assuming the four
arithmetic-context operations meet their section 6 contracts. -/
theorem gf2x_mod_inv_inverse_identity (R : Nat) (hR : R ∈ supportedR)
    {β : Type} (ctx : gf2x_ctx (Rq R) β)
    (hsqr : ∀ x, ctx.red (ctx.sqr x) = x * x)
    (hmul : ∀ x y, ctx.mul x y = x * y)
    (hk0 : ∀ i, i < (tablesFor R).max_i → ∀ x,
      ctx.k_sqr x ((tablesFor R).exp0_l.getD i 0) =
        x ^ 2 ^ (tablesFor R).exp0_k.getD i 0)
    (hk1 : ∀ i, i < (tablesFor R).max_i →
      (tablesFor R).exp1_k.getD i 0 ≠ 0 → ∀ x,
      ctx.k_sqr x ((tablesFor R).exp1_l.getD i 0) =
        x ^ 2 ^ (tablesFor R).exp1_k.getD i 0)
    (a : Rq R) (ha : IsUnit a) :
    gf2x_mod_inv ctx (tablesFor R) a * a = 1 :=
  gf2x_mod_inv_mul_cancel R hR ctx hsqr hmul hk0 hk1 a ha

theorem gf2x_mod_inv_inverse_identity_witness :
    gf2x_mod_inv
      (⟨fun x => x * x, fun x => x, fun x l => x ^ 2 ^ kOfL tablesLevel11 l,
        fun x y => x * y⟩ : gf2x_ctx (Rq 773) (Rq 773))
      (tablesFor 773) (1 : Rq 773) * 1 = 1 := by
  apply gf2x_mod_inv_inverse_identity 773 (by decide)
  · intro x
    rfl
  · intro x y
    rfl
  · intro i hi x
    have hi10 : i < 10 := hi
    have h : kOfL tablesLevel11 ((tablesFor 773).exp0_l.getD i 0) =
        (tablesFor 773).exp0_k.getD i 0 := by
      interval_cases i <;> decide
    show x ^ 2 ^ kOfL tablesLevel11 ((tablesFor 773).exp0_l.getD i 0) =
      x ^ 2 ^ (tablesFor 773).exp0_k.getD i 0
    rw [h]
  · intro i hi hne x
    have hi10 : i < 10 := hi
    have h : kOfL tablesLevel11 ((tablesFor 773).exp1_l.getD i 0) =
        (tablesFor 773).exp1_k.getD i 0 := by
      interval_cases i <;> decide
    show x ^ 2 ^ kOfL tablesLevel11 ((tablesFor 773).exp1_l.getD i 0) =
      x ^ 2 ^ (tablesFor 773).exp1_k.getD i 0
    rw [h]
  · exact isUnit_one

/-- Claim C7: for every invertible ring element `a` (tables and context for
the same supported R, the context meeting its section 6 contracts), double
inversion returns the original element. -/
theorem gf2x_mod_inv_double_inversion (R : Nat) (hR : R ∈ supportedR)
    {β : Type} (ctx : gf2x_ctx (Rq R) β)
    (hsqr : ∀ x, ctx.red (ctx.sqr x) = x * x)
    (hmul : ∀ x y, ctx.mul x y = x * y)
    (hk0 : ∀ i, i < (tablesFor R).max_i → ∀ x,
      ctx.k_sqr x ((tablesFor R).exp0_l.getD i 0) =
        x ^ 2 ^ (tablesFor R).exp0_k.getD i 0)
    (hk1 : ∀ i, i < (tablesFor R).max_i →
      (tablesFor R).exp1_k.getD i 0 ≠ 0 → ∀ x,
      ctx.k_sqr x ((tablesFor R).exp1_l.getD i 0) =
        x ^ 2 ^ (tablesFor R).exp1_k.getD i 0)
    (a : Rq R) (ha : IsUnit a) :
    gf2x_mod_inv ctx (tablesFor R) (gf2x_mod_inv ctx (tablesFor R) a) = a := by
  have hb := gf2x_mod_inv_mul_cancel R hR ctx hsqr hmul hk0 hk1 a ha
  have hbu : IsUnit (gf2x_mod_inv ctx (tablesFor R) a) :=
    isUnit_of_mul_eq_one _ a hb
  have hc := gf2x_mod_inv_mul_cancel R hR ctx hsqr hmul hk0 hk1 _ hbu
  calc gf2x_mod_inv ctx (tablesFor R) (gf2x_mod_inv ctx (tablesFor R) a)
      = gf2x_mod_inv ctx (tablesFor R) (gf2x_mod_inv ctx (tablesFor R) a) *
        (gf2x_mod_inv ctx (tablesFor R) a * a) := by rw [hb, mul_one]
    _ = (gf2x_mod_inv ctx (tablesFor R) (gf2x_mod_inv ctx (tablesFor R) a) *
        gf2x_mod_inv ctx (tablesFor R) a) * a := by rw [mul_assoc]
    _ = 1 * a := by rw [hc]
    _ = a := one_mul a

theorem gf2x_mod_inv_double_inversion_witness :
    gf2x_mod_inv
      (⟨fun x => x * x, fun x => x, fun x l => x ^ 2 ^ kOfL tablesLevel11 l,
        fun x y => x * y⟩ : gf2x_ctx (Rq 773) (Rq 773))
      (tablesFor 773)
      (gf2x_mod_inv
        (⟨fun x => x * x, fun x => x, fun x l => x ^ 2 ^ kOfL tablesLevel11 l,
          fun x y => x * y⟩ : gf2x_ctx (Rq 773) (Rq 773))
        (tablesFor 773) (1 : Rq 773)) = 1 := by
  apply gf2x_mod_inv_double_inversion 773 (by decide)
  · intro x
    rfl
  · intro x y
    rfl
  · intro i hi x
    have hi10 : i < 10 := hi
    have h : kOfL tablesLevel11 ((tablesFor 773).exp0_l.getD i 0) =
        (tablesFor 773).exp0_k.getD i 0 := by
      interval_cases i <;> decide
    show x ^ 2 ^ kOfL tablesLevel11 ((tablesFor 773).exp0_l.getD i 0) =
      x ^ 2 ^ (tablesFor 773).exp0_k.getD i 0
    rw [h]
  · intro i hi hne x
    have hi10 : i < 10 := hi
    have h : kOfL tablesLevel11 ((tablesFor 773).exp1_l.getD i 0) =
        (tablesFor 773).exp1_k.getD i 0 := by
      interval_cases i <;> decide
    show x ^ 2 ^ kOfL tablesLevel11 ((tablesFor 773).exp1_l.getD i 0) =
      x ^ 2 ^ (tablesFor 773).exp1_k.getD i 0
    rw [h]
  · exact isUnit_one

/-- Claim C2: for any two inputs `a1 != a2` with the same table/R, the
instrumented `gf2x_mod_inv` issues the identical sequence of
arithmetic-context calls: every branch (the `k <= 64` threshold, the
`exp1_k[i] != 0` skip, the `MAX_I` trip count) depends only on the public
table, never on the bit pattern of the data. -/
theorem gf2x_mod_inv_constant_time_trace {α β : Type} (ctx : gf2x_ctx α β)
    (tab : InvTables) (a1 a2 : α) (_hne : a1 ≠ a2) :
    (gf2x_mod_inv_tr ctx tab a1).2 = (gf2x_mod_inv_tr ctx tab a2).2 := by
  rw [gf2x_mod_inv_tr_trace, gf2x_mod_inv_tr_trace]

theorem gf2x_mod_inv_constant_time_trace_witness :
    (gf2x_mod_inv_tr (natCtx tablesLevel11) tablesLevel11 0).2 =
      (gf2x_mod_inv_tr (natCtx tablesLevel11) tablesLevel11 1).2 :=
  gf2x_mod_inv_constant_time_trace (natCtx tablesLevel11) tablesLevel11 0 1
    (by decide)

/-- Claim C3: run with any arithmetic context meeting the section 6
contracts, the code's embedding of `gf2x_mod_inv` equals the
straightforward embedding of the section 4.2 pseudocode (`invertSpec`):
per iteration, g = f^(2^exp0_k[i-1]); f = f*g; when exp1_k[i] != 0 also
g = f^(2^exp1_k[i]); t = t*g; finally c = t^2. -/
theorem gf2x_mod_inv_refines_spec_pseudocode {M β : Type} [CommMonoid M]
    (ctx : gf2x_ctx M β) (tab : InvTables)
    (hsqr : ∀ x, ctx.red (ctx.sqr x) = x * x)
    (hmul : ∀ x y, ctx.mul x y = x * y)
    (hk0 : ∀ i, i < tab.max_i → ∀ x,
      ctx.k_sqr x (tab.exp0_l.getD i 0) = x ^ 2 ^ tab.exp0_k.getD i 0)
    (hk1 : ∀ i, i < tab.max_i → tab.exp1_k.getD i 0 ≠ 0 → ∀ x,
      ctx.k_sqr x (tab.exp1_l.getD i 0) = x ^ 2 ^ tab.exp1_k.getD i 0)
    (a : M) :
    gf2x_mod_inv ctx tab a = invertSpec tab a :=
  gf2x_mod_inv_eq_invertSpec ctx tab hsqr hmul hk0 hk1 a

theorem gf2x_mod_inv_refines_spec_pseudocode_witness :
    gf2x_mod_inv (natCtx tablesLevel11) tablesLevel11 (3 : Nat) =
      invertSpec tablesLevel11 (3 : Nat) := by
  apply gf2x_mod_inv_refines_spec_pseudocode
  · intro x
    rfl
  · intro x y
    rfl
  · intro i hi x
    have hi10 : i < 10 := hi
    have h : kOfL tablesLevel11 (tablesLevel11.exp0_l.getD i 0) =
        tablesLevel11.exp0_k.getD i 0 := by
      interval_cases i <;> decide
    show x ^ 2 ^ kOfL tablesLevel11 (tablesLevel11.exp0_l.getD i 0) =
      x ^ 2 ^ tablesLevel11.exp0_k.getD i 0
    rw [h]
  · intro i hi hne x
    have hi10 : i < 10 := hi
    have h : kOfL tablesLevel11 (tablesLevel11.exp1_l.getD i 0) =
        tablesLevel11.exp1_k.getD i 0 := by
      interval_cases i <;> decide
    show x ^ 2 ^ kOfL tablesLevel11 (tablesLevel11.exp1_l.getD i 0) =
      x ^ 2 ^ tablesLevel11.exp1_k.getD i 0
    rw [h]

/-- Claim C6: the per-step exponentiation performs exactly `k` sequential
modular squarings (square into the double-width buffer, then reduce) when
`k <= 64`, and otherwise exactly one k-squaring call parameterized by `l`;
under the section 6 contract for `l`, both branches compute `x^(2^k)`, so
the value is independent of which branch the threshold selects. -/
theorem k_square_or_repeat_contract {M β : Type} [Monoid M]
    (ctx : gf2x_ctx M β) (x : M) (k l : Nat)
    (hsqr : ∀ y, ctx.red (ctx.sqr y) = y * y)
    (hksq : ∀ y, ctx.k_sqr y l = y ^ 2 ^ k) :
    k_square_or_repeat ctx x k l = x ^ 2 ^ k ∧
    (k ≤ K_SQR_THR → (k_square_or_repeat_tr ctx x k l).2 =
      List.flatten (List.replicate k [CtxCall.sqr, CtxCall.red])) ∧
    (K_SQR_THR < k → (k_square_or_repeat_tr ctx x k l).2 =
      [CtxCall.k_sqr l]) := by
  refine ⟨k_square_or_repeat_pow ctx hsqr x k l hksq, ?_, ?_⟩
  · intro hk
    rw [k_square_or_repeat_tr_snd]
    unfold ksorTrace
    rw [if_pos hk]
  · intro hk
    rw [k_square_or_repeat_tr_snd]
    unfold ksorTrace
    rw [if_neg (by omega)]

theorem k_square_or_repeat_contract_witness :
    (k_square_or_repeat (natCtx tablesLevel11) 5 1 387 = 5 ^ 2 ^ 1 ∧
      ((1:Nat) ≤ K_SQR_THR → (k_square_or_repeat_tr (natCtx tablesLevel11)
        5 1 387).2 =
        List.flatten (List.replicate 1 [CtxCall.sqr, CtxCall.red])) ∧
      (K_SQR_THR < 1 → (k_square_or_repeat_tr (natCtx tablesLevel11)
        5 1 387).2 = [CtxCall.k_sqr 387])) :=
  k_square_or_repeat_contract (natCtx tablesLevel11) 5 1 387
    (fun _ => rfl) (fun _ => rfl)

set_option exponentiation.threshold 40000 in
set_option maxRecDepth 40000 in
/-- Claim C4: for every security level's table and every index `i`, the
exponent `k` (`exp0_k[i]`, or `exp1_k[i]` when nonzero) and its inverse
entry `l` satisfy `(2^k mod R) * l = 1 (mod R)`; in particular for R = 773,
`exp0_l[0] = 387` satisfies `2*387 mod 773 = 1`. -/
theorem exp_tables_congruence :
    (∀ p ∈ levelTables, ∀ i, i < (p.2 : InvTables).max_i →
      2 ^ (p.2.exp0_k.getD i 0) % p.1 * p.2.exp0_l.getD i 0 % p.1 = 1 ∧
      (p.2.exp1_k.getD i 0 ≠ 0 →
        2 ^ (p.2.exp1_k.getD i 0) % p.1 * p.2.exp1_l.getD i 0 % p.1 = 1)) ∧
    tablesLevel11.exp0_l.getD 0 0 = 387 ∧ 2 * 387 % 773 = 1 := by
  refine ⟨?_, rfl, rfl⟩
  decide

theorem exp_tables_congruence_witness :
    2 ^ (tablesLevel11.exp0_k.getD 0 0) % 773 *
      tablesLevel11.exp0_l.getD 0 0 % 773 = 1 :=
  (exp_tables_congruence.1 (773, tablesLevel11) (by decide) 0 (by decide)).1

theorem derivedMaxI_eq (R m : Nat) (h1 : 2 ^ m ≤ R - 2)
    (h2 : R - 2 < 2 ^ (m + 1)) : derivedMaxI R = m + 1 := by
  unfold derivedMaxI
  rw [Nat.log2_eq_log_two, Nat.log_eq_of_pow_le_of_lt_pow h1 h2]

theorem derived_tables_check (R m : Nat) (tab : InvTables)
    (h1 : 2 ^ m ≤ R - 2) (h2 : R - 2 < 2 ^ (m + 1))
    (hmax : tab.max_i = m + 1)
    (hk0 : tab.exp0_k = (List.range (m + 1)).map (fun i => 2 ^ i))
    (hk1 : tab.exp1_k = (List.range (m + 1)).map
      (fun i => if (R - 2).testBit i then (R - 2) % 2 ^ i else 0)) :
    tab.max_i = derivedMaxI R ∧ tab.exp0_k = derivedExp0K R ∧
      tab.exp1_k = derivedExp1K R := by
  have hm := derivedMaxI_eq R m h1 h2
  refine ⟨?_, ?_, ?_⟩
  · rw [hmax, hm]
  · rw [hk0]
    unfold derivedExp0K
    rw [hm]
  · rw [hk1]
    unfold derivedExp1K
    rw [hm]

/-- Claim C5: for every supported security level with its configured ring
size R, the hardcoded chain parameters equal the section 4.1 derivation:
`MAX_I = floor(log2(R-2)) + 1`, `exp0_k[i] = 2^i`, and `exp1_k[i]` is
`(R-2) mod 2^i` exactly when bit `i` of `R-2` is set (else 0). -/
theorem exp_tables_equal_derivation :
    ∀ p ∈ levelTables, (p.2 : InvTables).max_i = derivedMaxI p.1 ∧
      p.2.exp0_k = derivedExp0K p.1 ∧ p.2.exp1_k = derivedExp1K p.1 := by
  intro p hp
  fin_cases hp
  · exact derived_tables_check 2053 11 tablesLevel0 (by norm_num)
      (by norm_num) (by decide) (by decide) (by decide)
  · exact derived_tables_check 7109 12 tablesLevel10 (by norm_num)
      (by norm_num) (by decide) (by decide) (by decide)
  · exact derived_tables_check 773 9 tablesLevel11 (by norm_num)
      (by norm_num) (by decide) (by decide) (by decide)
  · exact derived_tables_check 1019 9 tablesLevel12 (by norm_num)
      (by norm_num) (by decide) (by decide) (by decide)
  · exact derived_tables_check 1283 10 tablesLevel13 (by norm_num)
      (by norm_num) (by decide) (by decide) (by decide)
  · exact derived_tables_check 2029 10 tablesLevel14 (by norm_num)
      (by norm_num) (by decide) (by decide) (by decide)
  · exact derived_tables_check 2053 11 tablesLevel15 (by norm_num)
      (by norm_num) (by decide) (by decide) (by decide)
  · exact derived_tables_check 2069 11 tablesLevel16 (by norm_num)
      (by norm_num) (by decide) (by decide) (by decide)
  · exact derived_tables_check 4021 11 tablesLevel17 (by norm_num)
      (by norm_num) (by decide) (by decide) (by decide)
  · exact derived_tables_check 4099 12 tablesLevel18 (by norm_num)
      (by norm_num) (by decide) (by decide) (by decide)
  · exact derived_tables_check 12323 13 tablesLevel1 (by norm_num)
      (by norm_num) (by decide) (by decide) (by decide)
  · exact derived_tables_check 24659 14 tablesLevel3 (by norm_num)
      (by norm_num) (by decide) (by decide) (by decide)

theorem exp_tables_equal_derivation_witness :
    tablesLevel11.max_i = derivedMaxI 773 ∧
      tablesLevel11.exp0_k = derivedExp0K 773 ∧
      tablesLevel11.exp1_k = derivedExp1K 773 :=
  exp_tables_equal_derivation (773, tablesLevel11) (by decide)

/-- Claim C8: the scratch ring elements `f`, `g`, `t` and the double-width
buffer of one `gf2x_mod_inv` call are scoped to that call: under the
modelled `DEFER_CLEANUP` semantics they are all zeroized when the (single)
exit path runs, and the output was copied out of `t` beforehand, so the
returned value is exactly `gf2x_mod_inv`'s. -/
theorem gf2x_mod_inv_scoped_zeroization {α β : Type} [Zero α] [Zero β]
    (ctx : gf2x_ctx α β) (tab : InvTables) (a : α) :
    gf2x_mod_inv_scoped ctx tab a =
      (gf2x_mod_inv ctx tab a, (⟨0, 0, 0, 0⟩ : InvLocals α β)) := by
  simp only [gf2x_mod_inv_scoped, applyDeferredCleanups]
  rw [gf2x_mod_inv_locals_fst]

/-- Claim C9: the (spec-modelled) table derivation fails with
`InvalidParameter` exactly when R is outside the supported bounds: R not
prime, R at or above 32768, or R below 3. -/
theorem derive_tables_invalid_parameter_iff (R : Nat) :
    derive_tables R = Except.error DeriveError.InvalidParameter ↔
      (¬ Nat.Prime R ∨ 32768 ≤ R ∨ R < 3) := by
  unfold derive_tables
  split_ifs with h
  · exact ⟨fun _ => h, fun _ => rfl⟩
  · constructor
    · intro hcontra
      exact absurd hcontra (by simp)
    · intro hh
      exact absurd hh h

/-- Claim C10: every ring multiplication issued by `gf2x_mod_inv` writes
its result into a buffer that is also one of its source operands (f = g*f
and t = g*t), and the computation ends with the in-place squaring of `t`
followed by the copy into the output `c`. -/
theorem gf2x_mod_inv_mul_aliasing (tab : InvTables) :
    (∀ dst x y, BufEvent.mul dst x y ∈ bufTrace tab → dst = x ∨ dst = y) ∧
    (∃ pre, bufTrace tab =
      pre ++ [BufEvent.modsqr Buf.t, BufEvent.copy Buf.c Buf.t]) := by
  constructor
  · intro dst x y hmem
    have hall := bufTrace_all_alias tab
    have hp := List.all_eq_true.mp hall _ hmem
    simp only [mulAliasOK, Bool.or_eq_true, beq_iff_eq] at hp
    exact hp
  · exact ⟨_, rfl⟩

theorem gf2x_mod_inv_mul_aliasing_witness :
    Buf.f = Buf.g ∨ Buf.f = Buf.f :=
  (gf2x_mod_inv_mul_aliasing tablesLevel11).1 Buf.f Buf.g Buf.f (by decide)
